import Mathlib

/-!
Verification development for the foodtp-server recipe feasibility engine.

The Go source is shallowly embedded below: float64 quantities are modelled
as rationals, Go maps as functions into Option, map/set iteration order as
explicit lists.  The per-request feasibility search, the maximal-set
reduction, the unit/alias normalization, the density derivation from the
conversion CSV, and the legacy serving-scaling step are each translated
from their source functions.
-/

set_option linter.unusedVariables false

namespace FoodTP

/-- A quantity together with a measurement unit (Go struct Measurement). -/
structure Measurement where
  quantity : ℚ
  unit : String
deriving DecidableEq, Repr

/-- A named product with an amount (Go struct Product, flattened). -/
structure Product where
  name : String
  quantity : ℚ
  unit : String
deriving DecidableEq, Repr

/-- Per-product density entry (Go struct Density). -/
structure Density where
  quantity : ℚ
  massUnit : String
  volumeUnit : String
deriving DecidableEq, Repr

/-- Go const toTasteUnitName. -/
def toTasteUnitName : String := "to taste"

/-- Stock snapshot: Go ProductMap (map from product name to product). -/
abbrev Stock := String → Option Product

/-- Go RecipeTable: recipe name to its ingredient list.  A missing recipe
name yields the nil map in Go, i.e. the empty list here. -/
abbrev RecipeTable := String → List Product

/-- Go ProductDensityMap. -/
abbrev DensityMap := String → Option Density

/-- Go BaseUnitConversionMap. -/
abbrev BaseConversionMap := String → Option Measurement

/-- Go UnitConversionContext: a product-specific table and a base map. -/
structure UnitConversionContext where
  table : String → Option (String → Option Measurement)
  base : BaseConversionMap

/-- Go UnitAliasContext. -/
structure UnitAliasContext where
  table : String → Option (String → Option String)
  base : String → Option String

/-- The unit-alias step of ConvertUnit: when the alias table has a section
for the unit, use its product entry, else that section's absence of the
product falls back to the base alias map; when the table has no section
for the unit at all, no alias is applied (the base map is not consulted). -/
def unitAliasFor (ctx : UnitAliasContext) (unit name : String) : Option String :=
  match ctx.table unit with
  | none => none
  | some aliasDefinition =>
    match aliasDefinition name with
    | some a => some a
    | none => ctx.base unit

/-- The conversion lookup of ConvertUnit, exactly as the code branches:
if the conversion table has a section for the unit, the measurement used is
that section's entry for the product (nil when absent — no further
fallback); only when the table has no section for the unit is the base
conversion map consulted. -/
def lookupConversion (ctx : UnitConversionContext) (unit name : String) : Option Measurement :=
  match ctx.table unit with
  | some unitDefinition => unitDefinition name
  | none => ctx.base unit

/-- Modelled from the spec (§4.1 step 3 wording, used only to compare with
the code's lookupConversion): look up the product-specific entry
ConversionTable[unit][productName]; if that entry is absent, fall back to
BaseConversionMap[unit]. -/
def specLookupConversion (ctx : UnitConversionContext) (unit name : String) : Option Measurement :=
  match (ctx.table unit).bind (fun d => d name) with
  | some m => some m
  | none => ctx.base unit

/-- The two alias-resolution steps of ConvertUnit: the unit alias, then the
product-name alias. -/
def resolveAliases (ua : UnitAliasContext) (productAliasMap : String → Option String)
    (p : Product) : Product :=
  let p1 :=
    match unitAliasFor ua p.unit p.name with
    | some a => { p with unit := a }
    | none => p
  match productAliasMap p1.name with
  | some a => { p1 with name := a }
  | none => p1

/-- Go (*Product).ConvertUnit (identical in all three snapshots): unit alias
resolution, then product alias resolution, then the conversion lookup; the
found measurement rescales the quantity and replaces the unit. -/
def convertUnit (conv : UnitConversionContext) (ua : UnitAliasContext)
    (productAliasMap : String → Option String) (p : Product) : Product :=
  let p2 := resolveAliases ua productAliasMap p
  match lookupConversion conv p2.unit p2.name with
  | some m => { p2 with unit := m.unit, quantity := p2.quantity * m.quantity }
  | none => p2

/-- The converted quantity an ingredient requirement consumes, from the body
of GetMatchingRecipeNameSets: requirement quantity times numberOfServings;
on a unit mismatch the density entry converts along the matching axis, and
none signals the incomparable-units abort. -/
def convQty (dmap : DensityMap) (numberOfServings : Int) (stockUnit : String)
    (ing : Product) : Option ℚ :=
  let cq := ing.quantity * (numberOfServings : ℚ)
  if stockUnit = ing.unit then
    some cq
  else
    match dmap ing.name with
    | none => none
    | some d =>
      if ing.unit = d.volumeUnit ∧ stockUnit = d.massUnit then some (cq * d.quantity)
      else if ing.unit = d.massUnit ∧ stockUnit = d.volumeUnit then some (cq / d.quantity)
      else none

/-- Neither density-based conversion direction applies for an ingredient
against a stock unit: no density entry, or the unit pair matches neither
(volumeUnit, massUnit) nor (massUnit, volumeUnit). -/
def densityConvFails (dmap : DensityMap) (ing : Product) (stockUnit : String) : Prop :=
  match dmap ing.name with
  | none => True
  | some d =>
    ¬(ing.unit = d.volumeUnit ∧ stockUnit = d.massUnit)
      ∧ ¬(ing.unit = d.massUnit ∧ stockUnit = d.volumeUnit)

/-- One ingredient of the per-subset evaluation loop of
GetMatchingRecipeNameSets: missing product aborts; the to-taste sentinel
skips all accounting; otherwise the converted quantity is subtracted and a
negative remainder aborts.  none models the early return that discards the
subset. -/
def stepIngredient (dmap : DensityMap) (numberOfServings : Int) (st : Stock)
    (ing : Product) : Option Stock :=
  match st ing.name with
  | none => none
  | some rp =>
    if ing.unit = toTasteUnitName then some st
    else
      match convQty dmap numberOfServings rp.unit ing with
      | none => none
      | some cq =>
        if rp.quantity - cq < 0 then none
        else some (fun n => if n = ing.name then some { rp with quantity := rp.quantity - cq } else st n)

/-- The whole per-subset evaluation: the recipes' ingredients in iteration
order, against a private clone of the stock. -/
def runIngredients (dmap : DensityMap) (numberOfServings : Int) :
    Stock → List Product → Option Stock
  | st, [] => some st
  | st, ing :: rest =>
    match stepIngredient dmap numberOfServings st ing with
    | none => none
    | some st1 => runIngredients dmap numberOfServings st1 rest

/-- All ingredients of a recipe-name subset, in iteration order. -/
def subsetIngredients (t : RecipeTable) (subset : List String) : List Product :=
  (subset.map t).flatten

/-- Evaluate one candidate subset against a fresh clone of the stock. -/
def evalSubset (t : RecipeTable) (dmap : DensityMap) (numberOfServings : Int)
    (stock : Stock) (subset : List String) : Option Stock :=
  runIngredients dmap numberOfServings stock (subsetIngredients t subset)

/-- The feasible subsets collected from the power set, before the
maximal-set reduction (nonempty subsets whose evaluation did not abort). -/
def matchingSetsBeforeReduction (t : RecipeTable) (dmap : DensityMap) (stock : Stock)
    (powerSet : List (List String)) (numberOfServings : Int) : List (List String) :=
  powerSet.filter (fun S => !S.isEmpty && (evalSubset t dmap numberOfServings stock S).isSome)

/-- golang-set IsSubset: every element of a is an element of b. -/
def listSubsetB (a b : List String) : Bool := a.all (fun x => decide (x ∈ b))

/-- Whether the i-th feasible set has, elsewhere in the list, a superset
(Go compares set objects by identity; distinct list positions hold distinct
subsets of the power set, so position inequality is the faithful model). -/
def hasStrictSupersetAt (l : List (List String)) (i : Nat) : Bool :=
  (List.range l.length).any (fun j => decide (j ≠ i) && listSubsetB (l.getD i []) (l.getD j []))

/-- The maximal-set reduction: keep exactly the feasible sets that are not
contained in another feasible set. -/
def reduceMaximalSets (l : List (List String)) : List (List String) :=
  (List.range l.length).filterMap
    (fun i => if hasStrictSupersetAt l i then none else some (l.getD i []))

/-- Go (RecipeTable).GetMatchingRecipeNameSets: feasibility over the power
set followed by the maximal-set reduction. -/
def getMatchingRecipeNameSets (t : RecipeTable) (dmap : DensityMap) (stock : Stock)
    (powerSet : List (List String)) (numberOfServings : Int) : List (List String) :=
  reduceMaximalSets (matchingSetsBeforeReduction t dmap stock powerSet numberOfServings)

/-- Go scaleRecipesByNumberOfServings from the earlier snapshot in
src/main.go: multiplies every ingredient quantity of the shared table by
the literal 2, ignoring the numberOfServings argument. -/
def scaleRecipesByNumberOfServings (recipes : RecipeTable) (numberOfServings : Int) : RecipeTable :=
  fun name => (recipes name).map (fun ing => { ing with quantity := ing.quantity * 2 })

/-- The request handler of the earlier snapshot: when numberOfServings > 1
it applies the scaling to the shared table, and the (mutated) table is what
every later request observes. -/
def requestScaledTable (recipes : RecipeTable) (numberOfServings : Int) : RecipeTable :=
  if 1 < numberOfServings then scaleRecipesByNumberOfServings recipes numberOfServings else recipes

/-- Accumulator of the per-row density derivation in
(*UnitConversionContext).ImportFromCSVFile. -/
structure DensityAcc where
  massUnit : String
  volumeUnit : String
  sum : ℚ
  count : Nat
deriving DecidableEq, Repr

/-- One cell of a product row of the conversion CSV: the column unit paired
with the parsed measurement (none for the "-" placeholder).  The fold body
is translated from the row loop of ImportFromCSVFile. -/
def densityStep (baseMap : BaseConversionMap) (acc : DensityAcc)
    (cell : String × Option Measurement) : DensityAcc :=
  match cell.2 with
  | none => acc
  | some m =>
    let acc1 := if acc.massUnit = "" then { acc with massUnit := m.unit } else acc
    let acc2 := if acc1.volumeUnit = "" then { acc1 with volumeUnit := cell.1 } else acc1
    if acc2.massUnit = m.unit ∧ acc2.volumeUnit = cell.1 then
      match baseMap cell.1 with
      | some b => { acc2 with sum := acc2.sum + m.quantity / b.quantity, count := acc2.count + 1 }
      | none => acc2
    else acc2

/-- The density accumulation over one product row. -/
def deriveDensityAcc (baseMap : BaseConversionMap)
    (cells : List (String × Option Measurement)) : DensityAcc :=
  cells.foldl (densityStep baseMap) ⟨"", "", 0, 0⟩

/-- The final ratio: Go divides the accumulated sum by float64(count); with
count = 0 this is the IEEE division 0/0, whose result is NaN — modelled
here as none. -/
def densityRatio (acc : DensityAcc) : Option ℚ :=
  if acc.count = 0 then none else some (acc.sum / (acc.count : ℚ))

/-- The sum of the normalized samples of the qualifying cells: cells whose
measurement unit is the first-seen mass unit mu, whose column unit is the
first-seen volume unit vu, contributing measuredQuantity divided by the
base-unit factor of the column unit. -/
def qualSum (baseMap : BaseConversionMap) (mu vu : String) :
    List (String × Option Measurement) → ℚ
  | [] => 0
  | (u, none) :: rest => qualSum baseMap mu vu rest
  | (u, some m) :: rest =>
    (if m.unit = mu ∧ u = vu then
      match baseMap u with
      | some b => m.quantity / b.quantity
      | none => 0
     else 0) + qualSum baseMap mu vu rest

/-- The number of qualifying cells (those that also have a base conversion
for their column unit). -/
def qualCount (baseMap : BaseConversionMap) (mu vu : String) :
    List (String × Option Measurement) → Nat
  | [] => 0
  | (u, none) :: rest => qualCount baseMap mu vu rest
  | (u, some m) :: rest =>
    (if m.unit = mu ∧ u = vu ∧ (baseMap u).isSome = true then 1 else 0)
      + qualCount baseMap mu vu rest

/-- The first present cell of a row (the one that fixes the axis pair). -/
def firstEntry : List (String × Option Measurement) → Option (String × Measurement)
  | [] => none
  | (u, some m) :: _ => some (u, m)
  | (_, none) :: rest => firstEntry rest

/-- Whether one ingredient can be processed without aborting, judged against
a stock state: the product is present and, unless the ingredient is
to-taste, its unit is resolvable against the stock entry's unit. -/
def ingOK (dmap : DensityMap) (s : Int) (st : Stock) (ing : Product) : Prop :=
  ∃ rp, st ing.name = some rp ∧
    (ing.unit = toTasteUnitName ∨ (convQty dmap s rp.unit ing).isSome)

/-- The name/unit shape of a stock state at one key; evaluation only
rewrites quantities, never names, units or presence. -/
def shape (st : Stock) (n : String) : Option (String × String) :=
  (st n).map (fun p => (p.name, p.unit))

/-- The quantity an ingredient consumes from the initial stock (0 for
to-taste ingredients and for absent products). -/
def ingCons (dmap : DensityMap) (s : Int) (st0 : Stock) (ing : Product) : ℚ :=
  match st0 ing.name with
  | none => 0
  | some rp =>
    if ing.unit = toTasteUnitName then 0 else (convQty dmap s rp.unit ing).getD 0

/-- Total consumption of a product over an ingredient list. -/
def totalCons (dmap : DensityMap) (s : Int) (st0 : Stock) (l : List Product) (p : String) : ℚ :=
  (l.map (fun ing => if ing.name = p then ingCons dmap s st0 ing else 0)).sum

/-- The list has an occurrence that actually consumes the product. -/
def consOcc (l : List Product) (p : String) : Prop :=
  ∃ ing ∈ l, ing.name = p ∧ ing.unit ≠ toTasteUnitName

/-- The stock state obtained from the initial one by consuming c n of each
product n. -/
def adjust (st0 : Stock) (c : String → ℚ) : Stock :=
  fun n => (st0 n).map (fun rp => { rp with quantity := rp.quantity - c n })

/-- Two ingredients that agree on name and unit, and on quantity unless the
unit is the to-taste sentinel. -/
def IngredientToTasteMatch (a b : Product) : Prop :=
  a.name = b.name ∧ a.unit = b.unit ∧ (a.unit ≠ toTasteUnitName → a.quantity = b.quantity)

/-- Two recipe tables that differ at most in the quantities of to-taste
ingredients. -/
def TablesToTasteEquiv (t1 t2 : RecipeTable) : Prop :=
  ∀ name, List.Forall₂ IngredientToTasteMatch (t1 name) (t2 name)

/-- List-as-set containment, the relation golang-set IsSubset computes. -/
def ListSetSub (a b : List String) : Prop := ∀ x ∈ a, x ∈ b

/-- Equality as sets of two recipe-name lists. -/
def ListSetEq (a b : List String) : Prop := ListSetSub a b ∧ ListSetSub b a

/-- Proper containment as sets. -/
def ListSetProperSub (a b : List String) : Prop := ListSetSub a b ∧ ¬ ListSetSub b a

instance (a b : List String) : Decidable (ListSetSub a b) :=
  inferInstanceAs (Decidable (∀ x ∈ a, x ∈ b))

instance (a b : List String) : Decidable (ListSetEq a b) :=
  inferInstanceAs (Decidable (And _ _))

instance (a b : List String) : Decidable (ListSetProperSub a b) :=
  inferInstanceAs (Decidable (And _ _))

/-- Claim C10: scaleRecipesByNumberOfServings multiplies every ingredient
quantity in the table by exactly 2, independent of the numberOfServings
argument, and repeated calls compound the doubling (quantities become 4x
after two calls). -/
theorem scaleRecipes_doubles_ignoring_servings (recipes : RecipeTable) (n m : Int) :
    (∀ name, scaleRecipesByNumberOfServings recipes n name
      = (recipes name).map (fun ing => { ing with quantity := ing.quantity * 2 }))
    ∧ scaleRecipesByNumberOfServings recipes n = scaleRecipesByNumberOfServings recipes m
    ∧ ∀ name,
        (scaleRecipesByNumberOfServings (scaleRecipesByNumberOfServings recipes n) m name).map
            (fun ing => ing.quantity)
          = (recipes name).map (fun ing => ing.quantity * 4) := by
  refine ⟨fun name => rfl, rfl, fun name => ?_⟩
  simp only [scaleRecipesByNumberOfServings, List.map_map]
  refine List.map_congr_left (fun ing hmem => ?_)
  simp [Function.comp]
  ring

/-- Claim C1 (code bug): the earlier snapshot's request handler rescales the
shared recipe table in place.  On the catalog with one cake requiring 300 g
of flour, a servings = 2 request followed by a servings = 1 request leaves
the second request observing 600 g instead of the original 300 g, and a
servings = 3 request scales by 2, not 3. -/
theorem sharedCatalog_mutated_by_scaling :
    ((requestScaledTable
        (requestScaledTable
          (fun name => if name = "cake" then [⟨"flour", 300, "g"⟩] else []) 2) 1) "cake").map
        (fun ing => ing.quantity) = [600]
    ∧ ((fun (name : String) => if name = "cake" then [(⟨"flour", 300, "g"⟩ : Product)] else [])
        "cake").map (fun ing => ing.quantity) = [300]
    ∧ ((requestScaledTable
        (fun name => if name = "cake" then [⟨"flour", 300, "g"⟩] else []) 3) "cake").map
        (fun ing => ing.quantity) = [600] := by
  refine ⟨?_, ?_, ?_⟩ <;>
    simp [requestScaledTable, scaleRecipesByNumberOfServings] <;> norm_num

/-- Claim C3 counterexample: with a conversion table that has a "cup"
section containing only "flour", a base entry cup -> 240 g, and the product
"sugar" measured in cups, the spec's wording predicts the base fallback
(240 g) but the code leaves the product unchanged: the base map is only
consulted when the unit has no table section at all. -/
theorem conversionFallback_counterexample :
    (let ctx : UnitConversionContext :=
      { table := fun u =>
          if u = "cup" then some (fun n => if n = "flour" then some ⟨120, "g"⟩ else none)
          else none
        base := fun u => if u = "cup" then some ⟨240, "g"⟩ else none }
    ((ctx.table "cup").bind (fun d => d "sugar") = none)
    ∧ specLookupConversion ctx "cup" "sugar" = some ⟨240, "g"⟩
    ∧ lookupConversion ctx "cup" "sugar" = none
    ∧ convertUnit ctx ⟨fun _ => none, fun _ => none⟩ (fun _ => none) ⟨"sugar", 1, "cup"⟩
        = ⟨"sugar", 1, "cup"⟩) := by
  refine ⟨?_, ?_, ?_, ?_⟩ <;>
    simp [specLookupConversion, lookupConversion, convertUnit, resolveAliases, unitAliasFor]

/-- Claim C3 amended: the conversion lookup consults ConversionTable[unit]
first; when that unit has a section, the conversion used is exactly the
section's entry for the product and an absent product entry means no
conversion (the base map is NOT consulted); only when the unit has no
section at all does the lookup fall back to BaseConversionMap[unit]; a
found conversion multiplies the quantity by its factor and replaces the
unit; and when no conversion is found the product is left unchanged after
alias resolution (no error). -/
theorem conversionLookup_characterization (ctx : UnitConversionContext)
    (ua : UnitAliasContext) (pa : String → Option String) (p : Product)
    (d : String → Option Measurement) (m : Measurement) (u n : String) :
    (ctx.table u = some d → lookupConversion ctx u n = d n)
    ∧ (ctx.table u = none → lookupConversion ctx u n = ctx.base u)
    ∧ (lookupConversion ctx (resolveAliases ua pa p).unit (resolveAliases ua pa p).name = some m →
        convertUnit ctx ua pa p
          = { resolveAliases ua pa p with
              unit := m.unit, quantity := (resolveAliases ua pa p).quantity * m.quantity })
    ∧ (lookupConversion ctx (resolveAliases ua pa p).unit (resolveAliases ua pa p).name = none →
        convertUnit ctx ua pa p = resolveAliases ua pa p) := by
  refine ⟨fun h => ?_, fun h => ?_, fun h => ?_, fun h => ?_⟩
  · simp [lookupConversion, h]
  · simp [lookupConversion, h]
  · simp only [convertUnit]
    rw [h]
  · simp only [convertUnit]
    rw [h]

/-- Witness for the amended C3 characterization at a concrete context. -/
theorem conversionLookup_characterization_witness :
    (let ctx : UnitConversionContext :=
      { table := fun u =>
          if u = "cup" then some (fun n => if n = "flour" then some ⟨120, "g"⟩ else none)
          else none
        base := fun u => if u = "tbsp" then some ⟨15, "ml"⟩ else none }
    lookupConversion ctx "cup" "flour" = some ⟨120, "g"⟩
    ∧ lookupConversion ctx "cup" "sugar" = none
    ∧ lookupConversion ctx "tbsp" "oil" = some ⟨15, "ml"⟩
    ∧ convertUnit ctx ⟨fun _ => none, fun _ => none⟩ (fun _ => none) ⟨"flour", 2, "cup"⟩
        = ⟨"flour", 240, "g"⟩) := by
  have h1 := (conversionLookup_characterization
    ⟨fun u => if u = "cup" then some (fun n => if n = "flour" then some ⟨120, "g"⟩ else none) else none,
     fun u => if u = "tbsp" then some ⟨15, "ml"⟩ else none⟩
    ⟨fun _ => none, fun _ => none⟩ (fun _ => none) ⟨"flour", 2, "cup"⟩
    (fun n => if n = "flour" then some ⟨120, "g"⟩ else none) ⟨120, "g"⟩ "cup" "flour")
  have h2 := (conversionLookup_characterization
    ⟨fun u => if u = "cup" then some (fun n => if n = "flour" then some ⟨120, "g"⟩ else none) else none,
     fun u => if u = "tbsp" then some ⟨15, "ml"⟩ else none⟩
    ⟨fun _ => none, fun _ => none⟩ (fun _ => none) ⟨"oil", 1, "tbsp"⟩
    (fun n => if n = "flour" then some ⟨120, "g"⟩ else none) ⟨15, "ml"⟩ "tbsp" "oil")
  refine ⟨?_, ?_, ?_, ?_⟩
  · have := h1.1 (by simp)
    simpa using this
  · have := (conversionLookup_characterization
      ⟨fun u => if u = "cup" then some (fun n => if n = "flour" then some ⟨120, "g"⟩ else none) else none,
       fun u => if u = "tbsp" then some ⟨15, "ml"⟩ else none⟩
      ⟨fun _ => none, fun _ => none⟩ (fun _ => none) ⟨"flour", 2, "cup"⟩
      (fun n => if n = "flour" then some ⟨120, "g"⟩ else none) ⟨120, "g"⟩ "cup" "sugar").1 (by simp)
    simpa using this
  · rw [h2.2.1 (by simp)]
    simp
  · have := h1.2.2.1 (by simp [lookupConversion, resolveAliases, unitAliasFor])
    simp [resolveAliases, unitAliasFor] at this
    rw [this]
    norm_num

/-- Claim C8 counterexample: with base conversions g -> 1000 mg and
mg -> 1/1000 g, normalizing 1 g yields 1000 mg, and normalizing again
yields 1 g: normalization is not idempotent under chained conversion
entries. -/
theorem normalization_not_idempotent :
    (let ctx : UnitConversionContext :=
      { table := fun _ => none
        base := fun u =>
          if u = "g" then some ⟨1000, "mg"⟩
          else if u = "mg" then some ⟨1/1000, "g"⟩ else none }
    convertUnit ctx ⟨fun _ => none, fun _ => none⟩ (fun _ => none)
        (convertUnit ctx ⟨fun _ => none, fun _ => none⟩ (fun _ => none) ⟨"x", 1, "g"⟩)
      ≠ convertUnit ctx ⟨fun _ => none, fun _ => none⟩ (fun _ => none) ⟨"x", 1, "g"⟩) := by
  simp [convertUnit, resolveAliases, unitAliasFor, lookupConversion]

/-- Claim C8 amended: normalization is idempotent exactly when no further
rule applies to its output: if the normalized product's unit has no
applicable unit alias, its name has no product alias, and its unit/name
pair has no applicable conversion, then a second normalization is a no-op
(quantity, unit and name unchanged).  With chained table entries (as in the
counterexample) a second normalization converts again. -/
theorem normalization_idempotent_of_terminal (conv : UnitConversionContext)
    (ua : UnitAliasContext) (pa : String → Option String) (p : Product)
    (h1 : unitAliasFor ua (convertUnit conv ua pa p).unit (convertUnit conv ua pa p).name = none)
    (h2 : pa (convertUnit conv ua pa p).name = none)
    (h3 : lookupConversion conv (convertUnit conv ua pa p).unit
        (convertUnit conv ua pa p).name = none) :
    convertUnit conv ua pa (convertUnit conv ua pa p) = convertUnit conv ua pa p := by
  conv_lhs => rw [convertUnit, resolveAliases]
  rw [h1, h2, h3]

/-- Witness for the amended C8 idempotence: butter in cups converts once to
grams, and grams are terminal for these tables, so a second normalization
changes nothing. -/
theorem normalization_idempotent_of_terminal_witness :
    convertUnit ⟨fun _ => none, fun u => if u = "cup" then some ⟨240, "g"⟩ else none⟩
        ⟨fun _ => none, fun _ => none⟩ (fun _ => none)
        (convertUnit ⟨fun _ => none, fun u => if u = "cup" then some ⟨240, "g"⟩ else none⟩
          ⟨fun _ => none, fun _ => none⟩ (fun _ => none) ⟨"butter", 1, "cup"⟩)
      = convertUnit ⟨fun _ => none, fun u => if u = "cup" then some ⟨240, "g"⟩ else none⟩
        ⟨fun _ => none, fun _ => none⟩ (fun _ => none) ⟨"butter", 1, "cup"⟩ :=
  normalization_idempotent_of_terminal _ _ _ _
    (by simp [convertUnit, resolveAliases, unitAliasFor, lookupConversion])
    (by simp [convertUnit, resolveAliases, unitAliasFor, lookupConversion])
    (by simp [convertUnit, resolveAliases, unitAliasFor, lookupConversion])

/-- Claim C4 counterexample: with one recipe needing 10 g of flour and a
stock of 5 g, a request whose numberOfServings is 0 (the Go zero value of
an omitted field) is feasible, while the same request with
numberOfServings = 1 is infeasible: the engine multiplies by the value
as-is, so a value below 1 is NOT treated as no scaling. -/
theorem servingsZero_differs_from_one :
    ((evalSubset (fun name => if name = "A" then [⟨"flour", 10, "g"⟩] else []) (fun _ => none) 0
        (fun n => if n = "flour" then some ⟨"flour", 5, "g"⟩ else none) ["A"]).isSome = true)
    ∧ ((evalSubset (fun name => if name = "A" then [⟨"flour", 10, "g"⟩] else []) (fun _ => none) 1
        (fun n => if n = "flour" then some ⟨"flour", 5, "g"⟩ else none) ["A"]).isSome = false) := by
  constructor <;>
    simp [evalSubset, runIngredients, stepIngredient, convQty, subsetIngredients,
      toTasteUnitName] <;> norm_num

/-- Claim C4 amended: the engine uses numberOfServings directly as a
multiplier at the point of use — the consumed quantity of a requirement is
its quantity times numberOfServings, density-adjusted on a unit mismatch.
There is no defaulting and no clamping: an omitted field arrives as 0 and
zeroes every requirement, and values other than 1 (including 0 and
negatives) are not treated as 1. -/
theorem servings_multiplies_at_point_of_use (dmap : DensityMap) (s : Int)
    (u : String) (ing : Product) (d : Density) :
    (u = ing.unit → convQty dmap s u ing = some (ing.quantity * (s : ℚ)))
    ∧ (u ≠ ing.unit → dmap ing.name = some d → ing.unit = d.volumeUnit → u = d.massUnit →
        convQty dmap s u ing = some (ing.quantity * (s : ℚ) * d.quantity))
    ∧ (u ≠ ing.unit → dmap ing.name = some d → ¬(ing.unit = d.volumeUnit ∧ u = d.massUnit) →
        ing.unit = d.massUnit → u = d.volumeUnit →
        convQty dmap s u ing = some (ing.quantity * (s : ℚ) / d.quantity))
    ∧ (u ≠ ing.unit → dmap ing.name = none → convQty dmap s u ing = none) := by
  refine ⟨fun h => ?_, fun h hd hv hm => ?_, fun h hd hnot hm hv => ?_, fun h hd => ?_⟩
  · simp [convQty, h]
  · simp [convQty, h, hd, hv, hm]
    intro heq
    exact absurd (by rw [hm, heq, ← hv]) h
  · simp only [convQty, if_neg (by simpa [eq_comm] using h), hd, if_neg hnot,
      if_pos (And.intro hm hv)]
  · simp [convQty, h, hd]

/-- Witness for the amended C4 scaling law at concrete inputs. -/
theorem servings_multiplies_at_point_of_use_witness :
    convQty (fun _ => none) 3 "g" ⟨"flour", 10, "g"⟩ = some 30 := by
  have := (servings_multiplies_at_point_of_use (fun _ => none) 3 "g" ⟨"flour", 10, "g"⟩
    ⟨1, "g", "cup"⟩).1 rfl
  rw [this]
  norm_num

theorem step_shape {dmap : DensityMap} {s : Int} {st st' : Stock} {ing : Product}
    (h : stepIngredient dmap s st ing = some st') : ∀ n, shape st' n = shape st n := by
  intro n
  unfold stepIngredient at h
  split at h
  · exact Option.noConfusion h
  next rp hst =>
    split at h
    · obtain rfl : st = st' := Option.some.inj h
      rfl
    · split at h
      · exact Option.noConfusion h
      next cq hc =>
        split at h
        · exact Option.noConfusion h
        · have hs' := Option.some.inj h
          rw [← hs']
          unfold shape
          by_cases hn : n = ing.name
          · subst hn; simp [hst]
          · simp [hn]

theorem run_shape {dmap : DensityMap} {s : Int} :
    ∀ {l : List Product} {st st' : Stock},
      runIngredients dmap s st l = some st' → ∀ n, shape st' n = shape st n := by
  intro l
  induction l with
  | nil =>
    intro st st' h n
    obtain rfl : st = st' := Option.some.inj h
    rfl
  | cons a rest ih =>
    intro st st' h n
    unfold runIngredients at h
    split at h
    · exact Option.noConfusion h
    next st1 hstep =>
      exact (ih h n).trans (step_shape hstep n)

theorem shape_lookup {st st' : Stock} {n : String} (h : shape st' n = shape st n)
    {rp' : Product} (hst' : st' n = some rp') :
    ∃ rp, st n = some rp ∧ rp.name = rp'.name ∧ rp.unit = rp'.unit := by
  unfold shape at h
  rw [hst'] at h
  cases hst : st n with
  | none => rw [hst] at h; exact absurd h (by simp)
  | some rp =>
    rw [hst] at h
    simp only [Option.map_some', Option.some.injEq, Prod.mk.injEq] at h
    exact ⟨rp, rfl, h.1.symm, h.2.symm⟩

theorem ingOK_congr {dmap : DensityMap} {s : Int} {st st' : Stock} {ing : Product}
    (h : ∀ n, shape st' n = shape st n) :
    ingOK dmap s st' ing ↔ ingOK dmap s st ing := by
  constructor
  · rintro ⟨rp', hst', hres⟩
    obtain ⟨rp, hst, -, hunit⟩ := shape_lookup (h ing.name) hst'
    exact ⟨rp, hst, by rwa [hunit]⟩
  · rintro ⟨rp, hst, hres⟩
    obtain ⟨rp', hst', -, hunit⟩ := shape_lookup (h ing.name).symm hst
    exact ⟨rp', hst', by rwa [hunit]⟩

theorem step_ok {dmap : DensityMap} {s : Int} {st st' : Stock} {ing : Product}
    (h : stepIngredient dmap s st ing = some st') : ingOK dmap s st ing := by
  unfold stepIngredient at h
  split at h
  · exact Option.noConfusion h
  next rp hst =>
    split at h
    next ht => exact ⟨rp, hst, Or.inl ht⟩
    next ht =>
      refine ⟨rp, hst, Or.inr ?_⟩
      split at h
      · exact Option.noConfusion h
      next cq hc => simp [hc]

theorem run_ok {dmap : DensityMap} {s : Int} :
    ∀ {l : List Product} {st st' : Stock},
      runIngredients dmap s st l = some st' → ∀ ing ∈ l, ingOK dmap s st ing := by
  intro l
  induction l with
  | nil => intro st st' h ing hmem; exact absurd hmem (by simp)
  | cons a rest ih =>
    intro st st' h ing hmem
    unfold runIngredients at h
    split at h
    · exact Option.noConfusion h
    next st1 hstep =>
      rcases List.mem_cons.mp hmem with hmem | hmem
      · subst hmem; exact step_ok hstep
      · exact (ingOK_congr (step_shape hstep)).mp (ih h ing hmem)

theorem adjust_zero (st0 : Stock) : adjust st0 (fun _ => 0) = st0 := by
  funext n
  unfold adjust
  cases st0 n with
  | none => rfl
  | some rp => simp

theorem totalCons_cons (dmap : DensityMap) (s : Int) (st0 : Stock) (a : Product)
    (rest : List Product) (p : String) :
    totalCons dmap s st0 (a :: rest) p
      = (if a.name = p then ingCons dmap s st0 a else 0) + totalCons dmap s st0 rest p := by
  simp [totalCons]

theorem totalCons_nonneg {dmap : DensityMap} {s : Int} {st0 : Stock} {l : List Product}
    (p : String) (h : ∀ ing ∈ l, 0 ≤ ingCons dmap s st0 ing) :
    0 ≤ totalCons dmap s st0 l p := by
  apply List.sum_nonneg
  intro x hx
  simp only [List.mem_map] at hx
  obtain ⟨ing, hing, rfl⟩ := hx
  by_cases hn : ing.name = p
  · simpa [hn] using h ing hing
  · simp [hn]

theorem ingCons_toTaste {dmap : DensityMap} {s : Int} {st0 : Stock} {ing : Product}
    (ht : ing.unit = toTasteUnitName) : ingCons dmap s st0 ing = 0 := by
  cases hst : st0 ing.name <;> simp [ingCons, hst, ht]

theorem totalCons_zero_of_not_consOcc {dmap : DensityMap} {s : Int} {st0 : Stock}
    {l : List Product} {p : String} (h : ¬ consOcc l p) :
    totalCons dmap s st0 l p = 0 := by
  unfold totalCons
  apply List.sum_eq_zero
  intro x hx
  simp only [List.mem_map] at hx
  obtain ⟨ing, hing, rfl⟩ := hx
  by_cases hn : ing.name = p
  · have ht : ing.unit = toTasteUnitName := by
      by_contra hne
      exact h ⟨ing, hing, hn, hne⟩
    simp [hn, ingCons_toTaste ht]
  · simp [hn]

theorem adjust_lookup {st0 : Stock} {c : String → ℚ} {n : String} {rp : Product}
    (hst : st0 n = some rp) :
    adjust st0 c n = some { rp with quantity := rp.quantity - c n } := by
  unfold adjust
  rw [hst]
  rfl

theorem step_adjust {dmap : DensityMap} {s : Int} {st0 : Stock} {c : String → ℚ}
    {ing rp : Product} {cq : ℚ}
    (hst : st0 ing.name = some rp)
    (ht : ing.unit ≠ toTasteUnitName)
    (hc : convQty dmap s rp.unit ing = some cq)
    (hok : ¬ rp.quantity - c ing.name - cq < 0) :
    stepIngredient dmap s (adjust st0 c) ing
      = some (adjust st0 (fun n => if n = ing.name then c n + cq else c n)) := by
  have hadj : adjust st0 c ing.name
      = some { rp with quantity := rp.quantity - c ing.name } := adjust_lookup hst
  simp only [stepIngredient, hadj, if_neg ht, hc, if_neg hok]
  refine congrArg some (funext fun n => ?_)
  by_cases hn : n = ing.name
  · subst hn
    rw [if_pos rfl,
      @adjust_lookup st0 (fun n => if n = ing.name then c n + cq else c n) ing.name rp hst]
    simp only [Option.some.injEq, Product.mk.injEq, eq_self_iff_true, if_true, true_and,
      and_true]
    ring
  · rw [if_neg hn]
    show adjust st0 c n = adjust st0 (fun m => if m = ing.name then c m + cq else c m) n
    unfold adjust
    cases hstn : st0 n with
    | none => rfl
    | some rpn => simp [if_neg hn]

theorem step_adjust_toTaste {dmap : DensityMap} {s : Int} {st0 : Stock} {c : String → ℚ}
    {ing rp : Product}
    (hst : st0 ing.name = some rp)
    (ht : ing.unit = toTasteUnitName) :
    stepIngredient dmap s (adjust st0 c) ing = some (adjust st0 c) := by
  have hadj : adjust st0 c ing.name
      = some { rp with quantity := rp.quantity - c ing.name } := adjust_lookup hst
  simp only [stepIngredient, hadj, if_pos ht]

theorem run_complete (dmap : DensityMap) (s : Int) (st0 : Stock) :
    ∀ (l : List Product) (c : String → ℚ),
      (∀ ing ∈ l, ingOK dmap s st0 ing) →
      (∀ ing ∈ l, 0 ≤ ingCons dmap s st0 ing) →
      (∀ p rp, st0 p = some rp → consOcc l p →
        c p + totalCons dmap s st0 l p ≤ rp.quantity) →
      runIngredients dmap s (adjust st0 c) l
        = some (adjust st0 (fun p => c p + totalCons dmap s st0 l p)) := by
  intro l
  induction l with
  | nil =>
    intro c hok hnn hb
    simp [runIngredients, totalCons]
  | cons a rest ih =>
    intro c hok hnn hb
    obtain ⟨rp, hst, hres⟩ := hok a (List.mem_cons_self a rest)
    by_cases ht : a.unit = toTasteUnitName
    · rw [runIngredients, step_adjust_toTaste hst ht]
      have hrw : (fun p => c p + totalCons dmap s st0 (a :: rest) p)
          = fun p => c p + totalCons dmap s st0 rest p := by
        funext p
        rw [totalCons_cons, ingCons_toTaste ht]
        simp
      show runIngredients dmap s (adjust st0 c) rest
          = some (adjust st0 fun p => c p + totalCons dmap s st0 (a :: rest) p)
      rw [hrw]
      refine ih c (fun ing h => hok ing (List.mem_cons_of_mem a h))
        (fun ing h => hnn ing (List.mem_cons_of_mem a h))
        (fun p rp' hst' hocc => ?_)
      have hb' := hb p rp' hst' ⟨hocc.choose, List.mem_cons_of_mem a hocc.choose_spec.1,
        hocc.choose_spec.2⟩
      rw [totalCons_cons, ingCons_toTaste ht] at hb'
      simpa using hb'
    · have hcq : ∃ cq, convQty dmap s rp.unit a = some cq := by
        rcases hres with ht' | hsome
        · exact absurd ht' ht
        · exact Option.isSome_iff_exists.mp hsome
      obtain ⟨cq, hc⟩ := hcq
      have hing : ingCons dmap s st0 a = cq := by
        unfold ingCons
        rw [hst]
        simp [ht, hc]
      have hocc : consOcc (a :: rest) a.name := ⟨a, List.mem_cons_self a rest, rfl, ht⟩
      have hb0 := hb a.name rp hst hocc
      have htc : totalCons dmap s st0 (a :: rest) a.name
          = cq + totalCons dmap s st0 rest a.name := by
        rw [totalCons_cons, if_pos rfl, hing]
      have hrest_nn : 0 ≤ totalCons dmap s st0 rest a.name :=
        totalCons_nonneg a.name (fun ing h => hnn ing (List.mem_cons_of_mem a h))
      have hchk : ¬ rp.quantity - c a.name - cq < 0 := by
        push_neg
        rw [htc] at hb0
        linarith
      rw [runIngredients, step_adjust hst ht hc hchk]
      have hb2 : ∀ (p : String) (rp' : Product), st0 p = some rp' → consOcc rest p →
          (if p = a.name then c p + cq else c p) + totalCons dmap s st0 rest p
            ≤ rp'.quantity := by
        intro p rp' hst' hocc'
        by_cases hp : p = a.name
        · subst hp
          have hrp : rp' = rp := by
            rw [hst] at hst'
            exact (Option.some.inj hst').symm
          subst hrp
          rw [if_pos rfl]
          rw [htc] at hb0
          linarith
        · rw [if_neg hp]
          have hb' := hb p rp' hst' ⟨hocc'.choose, List.mem_cons_of_mem a hocc'.choose_spec.1,
            hocc'.choose_spec.2⟩
          rw [totalCons_cons, if_neg (fun h => hp h.symm)] at hb'
          simpa using hb'
      have ihres := ih (fun n => if n = a.name then c n + cq else c n)
        (fun ing h => hok ing (List.mem_cons_of_mem a h))
        (fun ing h => hnn ing (List.mem_cons_of_mem a h)) hb2
      show runIngredients dmap s (adjust st0 fun n => if n = a.name then c n + cq else c n) rest
          = some (adjust st0 fun p => c p + totalCons dmap s st0 (a :: rest) p)
      rw [ihres]
      refine congrArg some (congrArg (adjust st0) (funext fun p => ?_))
      by_cases hp : p = a.name
      · subst hp
        show (if a.name = a.name then c a.name + cq else c a.name)
            + totalCons dmap s st0 rest a.name
          = c a.name + totalCons dmap s st0 (a :: rest) a.name
        rw [if_pos rfl, totalCons_cons, if_pos rfl, hing]
        ring
      · show (if p = a.name then c p + cq else c p) + totalCons dmap s st0 rest p
          = c p + totalCons dmap s st0 (a :: rest) p
        rw [if_neg hp, totalCons_cons, if_neg (fun h => hp h.symm)]
        ring

theorem run_bound (dmap : DensityMap) (s : Int) (st0 : Stock) :
    ∀ (l : List Product) (c : String → ℚ) (st' : Stock),
      (∀ ing ∈ l, 0 ≤ ingCons dmap s st0 ing) →
      runIngredients dmap s (adjust st0 c) l = some st' →
      ∀ p rp, st0 p = some rp → consOcc l p →
        c p + totalCons dmap s st0 l p ≤ rp.quantity := by
  intro l
  induction l with
  | nil =>
    intro c st' hnn hrun p rp hst hocc
    exact absurd hocc (by simp [consOcc])
  | cons a rest ih =>
    intro c st' hnn hrun p rp hst hocc
    unfold runIngredients at hrun
    split at hrun
    · exact Option.noConfusion hrun
    next st1 hstep =>
      have hstep0 := hstep
      unfold stepIngredient at hstep
      split at hstep
      · exact Option.noConfusion hstep
      next cur hcur =>
        have hrpa : ∃ rpa, st0 a.name = some rpa
            ∧ cur = { rpa with quantity := rpa.quantity - c a.name } := by
          unfold adjust at hcur
          cases hsta : st0 a.name with
          | none => rw [hsta] at hcur; exact Option.noConfusion hcur
          | some rpa =>
            rw [hsta] at hcur
            exact ⟨rpa, rfl, (Option.some.inj hcur).symm⟩
        obtain ⟨rpa, hsta, hcureq⟩ := hrpa
        split at hstep
        next htt =>
          have hst1 : st1 = adjust st0 c := (Option.some.inj hstep).symm
          subst hst1
          have hocc' : consOcc rest p := by
            obtain ⟨ing, hmem, hnm, hnt⟩ := hocc
            rcases List.mem_cons.mp hmem with rfl | hmem'
            · exact absurd htt hnt
            · exact ⟨ing, hmem', hnm, hnt⟩
          have hih := ih c st' (fun i h => hnn i (List.mem_cons_of_mem a h)) hrun p rp hst hocc'
          rw [totalCons_cons, ingCons_toTaste htt, ite_self]
          linarith
        next htt =>
          split at hstep
          · exact Option.noConfusion hstep
          next cq hcq =>
            split at hstep
            next hneg => exact Option.noConfusion hstep
            next hneg =>
              have hcur_unit : cur.unit = rpa.unit := by rw [hcureq]
              have hcq' : convQty dmap s rpa.unit a = some cq := by
                rw [← hcur_unit]; exact hcq
              have hia : ingCons dmap s st0 a = cq := by
                unfold ingCons
                rw [hsta]
                simp [htt, hcq']
              have hneg' : ¬ rpa.quantity - c a.name - cq < 0 := by
                rw [hcureq] at hneg
                exact hneg
              have hstep2 := step_adjust hsta htt hcq' hneg'
              have hst1eq : st1 = adjust st0 (fun n => if n = a.name then c n + cq else c n) :=
                Option.some.inj (hstep0.symm.trans hstep2)
              rw [hst1eq] at hrun
              have hih := ih (fun n => if n = a.name then c n + cq else c n) st'
                (fun i h => hnn i (List.mem_cons_of_mem a h)) hrun
              rw [totalCons_cons]
              by_cases hap : a.name = p
              · subst hap
                have hrp : rpa = rp := by
                  rw [hst] at hsta
                  exact (Option.some.inj hsta).symm
                subst hrp
                rw [if_pos rfl, hia]
                by_cases hoccr : consOcc rest a.name
                · have hr := hih a.name rpa hst hoccr
                  simp only [eq_self_iff_true, if_true] at hr
                  linarith
                · rw [totalCons_zero_of_not_consOcc hoccr]
                  have := not_lt.mp hneg'
                  linarith
              · have hocc' : consOcc rest p := by
                  obtain ⟨ing, hmem, hnm, hnt⟩ := hocc
                  rcases List.mem_cons.mp hmem with rfl | hmem'
                  · exact absurd hnm hap
                  · exact ⟨ing, hmem', hnm, hnt⟩
                have hr := hih p rp hst hocc'
                simp only [if_neg (fun h : p = a.name => hap h.symm)] at hr
                rw [if_neg hap]
                linarith

theorem subsetIngredients_mem {t : RecipeTable} {S : List String} {ing : Product} :
    ing ∈ subsetIngredients t S ↔ ∃ r ∈ S, ing ∈ t r := by
  simp [subsetIngredients]

theorem totalCons_flatten (dmap : DensityMap) (s : Int) (st0 : Stock) (t : RecipeTable)
    (S : List String) (p : String) :
    totalCons dmap s st0 (subsetIngredients t S) p
      = (S.map (fun r => totalCons dmap s st0 (t r) p)).sum := by
  induction S with
  | nil => simp [subsetIngredients, totalCons]
  | cons r rest ih =>
    simp only [subsetIngredients, List.map_cons, List.flatten_cons] at ih ⊢
    simp only [totalCons, List.map_append, List.sum_append] at ih ⊢
    rw [ih]
    simp

theorem convQty_none_of_fails {dmap : DensityMap} {s : Int} {stockUnit : String}
    {ing : Product} (hmism : stockUnit ≠ ing.unit)
    (hfail : densityConvFails dmap ing stockUnit) :
    convQty dmap s stockUnit ing = none := by
  unfold convQty densityConvFails at *
  rw [if_neg hmism]
  cases hdm : dmap ing.name with
  | none => rfl
  | some d =>
    rw [hdm] at hfail
    simp only [if_neg hfail.1, if_neg hfail.2]

theorem ingCons_nonneg {dmap : DensityMap} {s : Int} {st0 : Stock} {ing : Product}
    (hq : 0 ≤ ing.quantity) (hs : 0 ≤ s)
    (hd : ∀ nm d, dmap nm = some d → 0 < d.quantity) :
    0 ≤ ingCons dmap s st0 ing := by
  have hsq : (0 : ℚ) ≤ (s : ℚ) := by exact_mod_cast hs
  have hcq : (0 : ℚ) ≤ ing.quantity * (s : ℚ) := mul_nonneg hq hsq
  unfold ingCons
  cases hst : st0 ing.name with
  | none => exact le_refl 0
  | some rp =>
    by_cases ht : ing.unit = toTasteUnitName
    · simp [ht]
    · simp only [if_neg ht]
      unfold convQty
      by_cases hu : rp.unit = ing.unit
      · simp only [if_pos hu]
        simpa using hcq
      · simp only [if_neg hu]
        cases hdm : dmap ing.name with
        | none => simp
        | some d =>
          have hdq := hd ing.name d hdm
          by_cases h1 : ing.unit = d.volumeUnit ∧ rp.unit = d.massUnit
          · simp only [if_pos h1, Option.getD_some]
            exact mul_nonneg hcq (le_of_lt hdq)
          · simp only [if_neg h1]
            by_cases h2 : ing.unit = d.massUnit ∧ rp.unit = d.volumeUnit
            · simp only [if_pos h2, Option.getD_some]
              exact div_nonneg hcq (le_of_lt hdq)
            · simp [if_neg h2]

theorem evalSubset_isSome_of {t : RecipeTable} {dmap : DensityMap} {s : Int} {stock : Stock}
    {S : List String}
    (hok : ∀ ing ∈ subsetIngredients t S, ingOK dmap s stock ing)
    (hnn : ∀ ing ∈ subsetIngredients t S, 0 ≤ ingCons dmap s stock ing)
    (hb : ∀ p rp, stock p = some rp → consOcc (subsetIngredients t S) p →
      totalCons dmap s stock (subsetIngredients t S) p ≤ rp.quantity) :
    (evalSubset t dmap s stock S).isSome = true := by
  unfold evalSubset
  have hstart : stock = adjust stock (fun _ => 0) := (adjust_zero stock).symm
  rw [hstart]
  rw [run_complete dmap s stock (subsetIngredients t S) (fun _ => 0) hok hnn
    (fun p rp hst hocc => by simpa using hb p rp hst hocc)]
  rfl

theorem evalSubset_none_of_badunit {t : RecipeTable} {dmap : DensityMap} {s : Int}
    {stock : Stock} {S : List String} {ing rp : Product}
    (hmem : ing ∈ subsetIngredients t S)
    (hst : stock ing.name = some rp)
    (ht : ing.unit ≠ toTasteUnitName)
    (hmism : rp.unit ≠ ing.unit)
    (hfail : densityConvFails dmap ing rp.unit) :
    evalSubset t dmap s stock S = none := by
  cases h : evalSubset t dmap s stock S with
  | none => rfl
  | some st' =>
    exfalso
    have hok := run_ok h ing hmem
    obtain ⟨rp', hst', hres⟩ := hok
    have hrp : rp' = rp := by rw [hst] at hst'; exact (Option.some.inj hst').symm
    subst hrp
    rcases hres with htt | hsome
    · exact ht htt
    · rw [convQty_none_of_fails hmism hfail] at hsome
      exact Option.noConfusion (Option.isSome_iff_exists.mp hsome).choose_spec

/-- Claim C2: when an ingredient requirement of a candidate subset has a
unit differing from the stock entry's unit for the same product and neither
density conversion direction applies (no density entry, or the unit pair
matches neither axis assignment), the subset's evaluation aborts — the
ingredient is not skipped — and the subset is not collected as feasible. -/
theorem unresolvedUnitMismatch_aborts_subset (t : RecipeTable) (dmap : DensityMap)
    (s : Int) (stock : Stock) (S : List String) (powerSet : List (List String))
    (ing rp : Product)
    (hmem : ing ∈ subsetIngredients t S)
    (hst : stock ing.name = some rp)
    (ht : ing.unit ≠ toTasteUnitName)
    (hmism : rp.unit ≠ ing.unit)
    (hfail : densityConvFails dmap ing rp.unit) :
    evalSubset t dmap s stock S = none
    ∧ S ∉ matchingSetsBeforeReduction t dmap stock powerSet s := by
  have hnone := @evalSubset_none_of_badunit t dmap s stock S ing rp hmem hst ht hmism hfail
  refine ⟨hnone, fun hmem' => ?_⟩
  rw [matchingSetsBeforeReduction, List.mem_filter] at hmem'
  have hpred := hmem'.2
  rw [hnone] at hpred
  simp at hpred

/-- Witness for C2 at spec Scenario C: milk required in cups against stock
in ml, with a density entry on the (g, cup) axes, is incomparable and the
subset is rejected. -/
theorem unresolvedUnitMismatch_aborts_subset_witness :
    evalSubset (fun n => if n = "A" then [⟨"milk", 1, "cup"⟩] else [])
        (fun n => if n = "milk" then some ⟨240, "g", "cup"⟩ else none) 1
        (fun n => if n = "milk" then some ⟨"milk", 500, "ml"⟩ else none) ["A"] = none
    ∧ ["A"] ∉ matchingSetsBeforeReduction
        (fun n => if n = "A" then [⟨"milk", 1, "cup"⟩] else [])
        (fun n => if n = "milk" then some ⟨240, "g", "cup"⟩ else none)
        (fun n => if n = "milk" then some ⟨"milk", 500, "ml"⟩ else none) [[], ["A"]] 1 :=
  unresolvedUnitMismatch_aborts_subset _ _ _ _ _ _ ⟨"milk", 1, "cup"⟩ ⟨"milk", 500, "ml"⟩
    (by simp [subsetIngredients])
    (by simp)
    (by simp [toTasteUnitName])
    (by simp)
    (by simp [densityConvFails])

/-- Claim C5 counterexample: with a negative ingredient quantity (parseable
from the recipe CSV), feasibility is not monotone under subset: the stock
has 5 g of p, recipe A needs 10 g, recipe B needs -20 g; the subset
containing B and A evaluates feasibly (B's negative requirement refunds
stock before A consumes), while its subset containing only A aborts. -/
theorem subsetMonotonicity_counterexample :
    (["A"] : List String) ⊆ ["B", "A"]
    ∧ (["B", "A"] : List String).Nodup
    ∧ (["A"] : List String).Nodup
    ∧ (evalSubset (fun name => if name = "A" then [⟨"p", 10, "g"⟩]
          else if name = "B" then [⟨"p", -20, "g"⟩] else []) (fun _ => none) 1
        (fun n => if n = "p" then some ⟨"p", 5, "g"⟩ else none) ["B", "A"]).isSome = true
    ∧ (evalSubset (fun name => if name = "A" then [⟨"p", 10, "g"⟩]
          else if name = "B" then [⟨"p", -20, "g"⟩] else []) (fun _ => none) 1
        (fun n => if n = "p" then some ⟨"p", 5, "g"⟩ else none) ["A"]).isSome = false := by
  refine ⟨by simp [List.subset_def], by simp, by simp, ?_, ?_⟩ <;>
    simp [evalSubset, runIngredients, stepIngredient, convQty, subsetIngredients,
      toTasteUnitName] <;> norm_num

/-- Claim C5 amended: the feasibility predicate is monotone under subset
provided every catalog ingredient quantity is nonnegative, the serving
multiplier is nonnegative, and every density ratio is positive (so that
every converted consumed quantity is nonnegative): then if a duplicate-free
recipe-name subset S is feasible, so is every duplicate-free subset T of S.
Without the nonnegativity assumptions the counterexample applies. -/
theorem feasibility_monotone_of_nonneg (t : RecipeTable) (dmap : DensityMap) (s : Int)
    (stock : Stock) (S T : List String)
    (hq : ∀ r, ∀ ing ∈ t r, 0 ≤ ing.quantity)
    (hs : 0 ≤ s)
    (hd : ∀ nm d, dmap nm = some d → 0 < d.quantity)
    (hS : S.Nodup) (hT : T.Nodup) (hsub : T ⊆ S)
    (hfeas : (evalSubset t dmap s stock S).isSome = true) :
    (evalSubset t dmap s stock T).isSome = true := by
  obtain ⟨st', hrun⟩ := Option.isSome_iff_exists.mp hfeas
  have hmemTS : ∀ {ing : Product}, ing ∈ subsetIngredients t T → ing ∈ subsetIngredients t S := by
    intro ing hmem
    rw [subsetIngredients_mem] at hmem ⊢
    obtain ⟨r, hr, hi⟩ := hmem
    exact ⟨r, hsub hr, hi⟩
  have hnnAll : ∀ ing ∈ subsetIngredients t S, 0 ≤ ingCons dmap s stock ing := by
    intro ing hmem
    obtain ⟨r, hr, hi⟩ := subsetIngredients_mem.mp hmem
    exact ingCons_nonneg (hq r ing hi) hs hd
  have hokS : ∀ ing ∈ subsetIngredients t S, ingOK dmap s stock ing :=
    fun ing hmem => run_ok hrun ing hmem
  have hrun' : runIngredients dmap s (adjust stock (fun _ => 0))
      (subsetIngredients t S) = some st' := by
    rw [adjust_zero]
    exact hrun
  have hbS := run_bound dmap s stock (subsetIngredients t S) (fun _ => 0) st' hnnAll hrun'
  apply evalSubset_isSome_of
  · exact fun ing hmem => hokS ing (hmemTS hmem)
  · intro ing hmem
    obtain ⟨r, hr, hi⟩ := subsetIngredients_mem.mp hmem
    exact ingCons_nonneg (hq r ing hi) hs hd
  · intro p rp hst hocc
    have hoccS : consOcc (subsetIngredients t S) p := by
      obtain ⟨ing, hmem, hnm, hnt⟩ := hocc
      exact ⟨ing, hmemTS hmem, hnm, hnt⟩
    have h1 := hbS p rp hst hoccS
    simp only [zero_add] at h1
    have h2 : totalCons dmap s stock (subsetIngredients t T) p
        ≤ totalCons dmap s stock (subsetIngredients t S) p := by
      rw [totalCons_flatten, totalCons_flatten]
      rw [← List.sum_toFinset _ hT, ← List.sum_toFinset _ hS]
      apply Finset.sum_le_sum_of_subset_of_nonneg
      · intro x hx
        rw [List.mem_toFinset] at hx ⊢
        exact hsub hx
      · intro r hr hnr
        rw [List.mem_toFinset] at hr
        apply totalCons_nonneg
        intro ing hi
        exact ingCons_nonneg (hq r ing hi) hs hd
    linarith

/-- Witness for the amended C5 monotonicity on a concrete feasible pair. -/
theorem feasibility_monotone_of_nonneg_witness :
    (evalSubset (fun name => if name = "A" then [⟨"p", 1, "g"⟩] else [])
      (fun _ => none) 1 (fun n => if n = "p" then some ⟨"p", 2, "g"⟩ else none)
      ([] : List String)).isSome = true :=
  feasibility_monotone_of_nonneg
    (fun name => if name = "A" then [⟨"p", 1, "g"⟩] else []) (fun _ => none) 1
    (fun n => if n = "p" then some ⟨"p", 2, "g"⟩ else none) ["A"] []
    (by
      intro r ing hmem
      dsimp only at hmem
      by_cases h : r = "A"
      · rw [if_pos h] at hmem
        simp at hmem
        subst hmem
        norm_num
      · rw [if_neg h] at hmem
        simp at hmem)
    (by norm_num)
    (fun nm d h => Option.noConfusion h)
    (by simp) (by simp) (by simp)
    (by simp [evalSubset, runIngredients, stepIngredient, convQty, subsetIngredients,
        toTasteUnitName])

theorem convQty_congr (dmap : DensityMap) (s : Int) (u : String) {a b : Product}
    (hn : a.name = b.name) (hu : a.unit = b.unit) (hq : a.quantity = b.quantity) :
    convQty dmap s u a = convQty dmap s u b := by
  unfold convQty
  rw [hn, hu, hq]

theorem step_congr_toTaste {dmap : DensityMap} {s : Int} {st : Stock} {a b : Product}
    (h : IngredientToTasteMatch a b) :
    stepIngredient dmap s st a = stepIngredient dmap s st b := by
  obtain ⟨hn, hu, hq⟩ := h
  unfold stepIngredient
  rw [← hn, ← hu]
  cases hst : st a.name with
  | none => simp only [hst]
  | some rp =>
    simp only [hst]
    by_cases ht : a.unit = toTasteUnitName
    · simp only [if_pos ht]
    · simp only [if_neg ht, convQty_congr dmap s rp.unit hn hu (hq ht)]

theorem run_congr_toTaste {dmap : DensityMap} {s : Int} :
    ∀ {l1 l2 : List Product}, List.Forall₂ IngredientToTasteMatch l1 l2 →
      ∀ st, runIngredients dmap s st l1 = runIngredients dmap s st l2 := by
  intro l1 l2 h
  induction h with
  | nil => intro st; rfl
  | @cons a b r1 r2 hab hrest ih =>
    intro st
    unfold runIngredients
    rw [step_congr_toTaste hab]
    cases hstep : stepIngredient dmap s st b with
    | none => simp only [hstep]
    | some st1 =>
      simp only [hstep]
      exact ih st1

theorem subsetIngredients_congr {t1 t2 : RecipeTable} (h : TablesToTasteEquiv t1 t2)
    (S : List String) :
    List.Forall₂ IngredientToTasteMatch (subsetIngredients t1 S) (subsetIngredients t2 S) := by
  induction S with
  | nil => exact List.Forall₂.nil
  | cons r rest ih =>
    simp only [subsetIngredients, List.map_cons, List.flatten_cons] at ih ⊢
    exact List.rel_append (h r) ih

theorem evalSubset_congr_toTaste {t1 t2 : RecipeTable} (h : TablesToTasteEquiv t1 t2)
    (dmap : DensityMap) (s : Int) (stock : Stock) (S : List String) :
    evalSubset t1 dmap s stock S = evalSubset t2 dmap s stock S :=
  run_congr_toTaste (subsetIngredients_congr h S) stock

/-- Claim C7: a to-taste requirement whose product is present in stock
leaves the remaining-stock state untouched — it consumes nothing, cannot
drive any quantity negative, and cannot make the subset infeasible — and
consequently two catalogs that differ only in the quantities of to-taste
ingredients produce identical engine results on every request. -/
theorem toTaste_never_limits (t1 t2 : RecipeTable) (dmap : DensityMap) (s : Int)
    (stock : Stock) (powerSet : List (List String))
    (hEquiv : TablesToTasteEquiv t1 t2) :
    (∀ (st : Stock) (ing rp : Product), st ing.name = some rp →
        ing.unit = toTasteUnitName → stepIngredient dmap s st ing = some st)
    ∧ getMatchingRecipeNameSets t1 dmap stock powerSet s
        = getMatchingRecipeNameSets t2 dmap stock powerSet s := by
  constructor
  · intro st ing rp hst ht
    unfold stepIngredient
    simp only [hst, if_pos ht]
  · unfold getMatchingRecipeNameSets matchingSetsBeforeReduction
    congr 1
    apply List.filter_congr
    intro S hS
    rw [evalSubset_congr_toTaste hEquiv dmap s stock S]

/-- Witness for C7: changing a to-taste salt quantity from 1 to 999 leaves
the engine output identical, and the to-taste step is a no-op on a present
product. -/
theorem toTaste_never_limits_witness :
    (∀ (st : Stock) (ing rp : Product), st ing.name = some rp →
        ing.unit = toTasteUnitName →
        stepIngredient (fun _ => none) 1 st ing = some st)
    ∧ getMatchingRecipeNameSets
        (fun n => if n = "cake" then [⟨"salt", 1, "to taste"⟩, ⟨"flour", 300, "g"⟩] else [])
        (fun _ => none)
        (fun n => if n = "flour" then some ⟨"flour", 500, "g"⟩
          else if n = "salt" then some ⟨"salt", 0, "kg"⟩ else none)
        [[], ["cake"]] 1
      = getMatchingRecipeNameSets
        (fun n => if n = "cake" then [⟨"salt", 999, "to taste"⟩, ⟨"flour", 300, "g"⟩] else [])
        (fun _ => none)
        (fun n => if n = "flour" then some ⟨"flour", 500, "g"⟩
          else if n = "salt" then some ⟨"salt", 0, "kg"⟩ else none)
        [[], ["cake"]] 1 :=
  toTaste_never_limits _ _ _ _ _ _
    (by
      intro name
      by_cases h : name = "cake"
      · simp only [h, if_pos rfl]
        refine List.Forall₂.cons ?_ (List.Forall₂.cons ?_ List.Forall₂.nil)
        · exact ⟨rfl, rfl, fun hne => absurd rfl hne⟩
        · exact ⟨rfl, rfl, fun hne => rfl⟩
      · simp only [if_neg h]
        exact List.Forall₂.nil)

theorem listSubsetB_iff {a b : List String} : listSubsetB a b = true ↔ ListSetSub a b := by
  simp [listSubsetB, ListSetSub, List.all_eq_true]

theorem listSetSub_refl (a : List String) : ListSetSub a a := fun x hx => hx

theorem listSetEq_symm {a b : List String} (h : ¬ ListSetEq a b) : ¬ ListSetEq b a :=
  fun hab => h ⟨hab.2, hab.1⟩

theorem hasStrictSupersetAt_iff {l : List (List String)}
    (hpair : l.Pairwise (fun a b => ¬ ListSetEq a b)) {i : Nat} (hi : i < l.length) :
    hasStrictSupersetAt l i = true ↔ ∃ b ∈ l, ListSetProperSub (l.getD i []) b := by
  have hdistinct : ∀ (j : Nat) (hj : j < l.length), j ≠ i →
      ¬ ListSetEq (l.getD i []) (l.getD j []) := by
    intro j hj hne
    rw [List.getD_eq_getElem l [] hi, List.getD_eq_getElem l [] hj]
    rcases Nat.lt_or_ge i j with hij | hij
    · exact List.pairwise_iff_getElem.mp hpair i j hi hj hij
    · have hji : j < i := lt_of_le_of_ne hij hne
      exact listSetEq_symm (List.pairwise_iff_getElem.mp hpair j i hj hi hji)
  unfold hasStrictSupersetAt
  rw [List.any_eq_true]
  constructor
  · rintro ⟨j, hjr, hj⟩
    rw [List.mem_range] at hjr
    rw [Bool.and_eq_true, decide_eq_true_iff, listSubsetB_iff] at hj
    refine ⟨l.getD j [], ?_, hj.2, ?_⟩
    · rw [List.getD_eq_getElem l [] hjr]
      exact List.getElem_mem hjr
    · intro hba
      exact hdistinct j hjr hj.1 ⟨hj.2, hba⟩
  · rintro ⟨b, hbmem, hsub, hnsub⟩
    obtain ⟨j, hj, hbj⟩ := List.getElem_of_mem hbmem
    refine ⟨j, List.mem_range.mpr hj, ?_⟩
    rw [Bool.and_eq_true, decide_eq_true_iff, listSubsetB_iff]
    have hbj' : l.getD j [] = b := by rw [List.getD_eq_getElem l [] hj, hbj]
    refine ⟨?_, by rw [hbj']; exact hsub⟩
    intro hji
    subst hji
    rw [hbj'] at hsub hnsub
    exact hnsub hsub

theorem mem_reduceMaximalSets_iff {l : List (List String)}
    (hpair : l.Pairwise (fun a b => ¬ ListSetEq a b)) {a : List String} :
    a ∈ reduceMaximalSets l ↔ a ∈ l ∧ ¬ ∃ b ∈ l, ListSetProperSub a b := by
  unfold reduceMaximalSets
  rw [List.mem_filterMap]
  constructor
  · rintro ⟨i, hir, hfi⟩
    rw [List.mem_range] at hir
    by_cases hstrict : hasStrictSupersetAt l i = true
    · rw [if_pos hstrict] at hfi
      exact Option.noConfusion hfi
    · rw [if_neg hstrict] at hfi
      have ha : l.getD i [] = a := Option.some.inj hfi
      have hmem : a ∈ l := by
        rw [← ha, List.getD_eq_getElem l [] hir]
        exact List.getElem_mem hir
      refine ⟨hmem, fun hex => hstrict ?_⟩
      rw [hasStrictSupersetAt_iff hpair hir, ha]
      exact hex
  · rintro ⟨hmem, hnone⟩
    obtain ⟨i, hi, hai⟩ := List.getElem_of_mem hmem
    have hgd : l.getD i [] = a := by rw [List.getD_eq_getElem l [] hi, hai]
    refine ⟨i, List.mem_range.mpr hi, ?_⟩
    have hstrict : hasStrictSupersetAt l i = false := by
      rw [Bool.eq_false_iff]
      intro htrue
      rw [hasStrictSupersetAt_iff hpair hi, hgd] at htrue
      exact hnone htrue
    rw [hstrict]
    simp only [Bool.false_eq_true, if_false, Option.some.injEq]
    exact hgd

/-- Claim C6: on a collection of pairwise set-distinct feasible subsets (as
the power-set enumeration produces), the maximal-set reduction keeps
exactly the subsets with no proper superset in the collection; the result
is an antichain under set inclusion; and two set-distinct maximal sets of
equal cardinality are incomparable and both retained. -/
theorem maximalReduction_antichain (l : List (List String))
    (hpair : l.Pairwise (fun a b => ¬ ListSetEq a b)) :
    (∀ a, a ∈ reduceMaximalSets l ↔ a ∈ l ∧ ¬ ∃ b ∈ l, ListSetProperSub a b)
    ∧ (∀ a ∈ reduceMaximalSets l, ∀ b ∈ reduceMaximalSets l, ¬ ListSetProperSub a b)
    ∧ (∀ a ∈ l, ∀ b ∈ l, ¬ ListSetEq a b → a.toFinset.card = b.toFinset.card →
        (¬ ListSetProperSub a b ∧ ¬ ListSetProperSub b a)
        ∧ ((¬ ∃ x ∈ l, ListSetProperSub a x) → (¬ ∃ x ∈ l, ListSetProperSub b x) →
            a ∈ reduceMaximalSets l ∧ b ∈ reduceMaximalSets l)) := by
  have hmemiff := fun a => @mem_reduceMaximalSets_iff l hpair a
  refine ⟨hmemiff, ?_, ?_⟩
  · intro a ha b hb hproper
    have h1 := (hmemiff a).mp ha
    have h2 := (hmemiff b).mp hb
    exact h1.2 ⟨b, h2.1, hproper⟩
  · intro a ha b hb hne hcard
    have hincomp : ¬ ListSetProperSub a b ∧ ¬ ListSetProperSub b a := by
      constructor
      · rintro ⟨hsub, hnsub⟩
        have hfin : a.toFinset ⊂ b.toFinset := by
          refine Finset.ssubset_iff_subset_ne.mpr ⟨?_, ?_⟩
          · intro x hx
            rw [List.mem_toFinset] at hx ⊢
            exact hsub x hx
          · intro heq
            apply hnsub
            intro x hx
            rw [← List.mem_toFinset, ← heq, List.mem_toFinset] at hx
            exact hx
        exact absurd hcard (Nat.ne_of_lt (Finset.card_lt_card hfin))
      · rintro ⟨hsub, hnsub⟩
        have hfin : b.toFinset ⊂ a.toFinset := by
          refine Finset.ssubset_iff_subset_ne.mpr ⟨?_, ?_⟩
          · intro x hx
            rw [List.mem_toFinset] at hx ⊢
            exact hsub x hx
          · intro heq
            apply hnsub
            intro x hx
            rw [← List.mem_toFinset, ← heq, List.mem_toFinset] at hx
            exact hx
        exact absurd hcard.symm (Nat.ne_of_lt (Finset.card_lt_card hfin))
    refine ⟨hincomp, fun hmaxa hmaxb => ?_⟩
    exact ⟨(hmemiff a).mpr ⟨ha, hmaxa⟩, (hmemiff b).mpr ⟨hb, hmaxb⟩⟩

/-- Witness for C6 on the two equal-cardinality maximal sets of spec
Scenario A together with a redundant singleton. -/
theorem maximalReduction_antichain_witness :
    (∀ a, a ∈ reduceMaximalSets [["cake", "pie"], ["cookies", "pie"], ["cake"]]
      ↔ a ∈ [["cake", "pie"], ["cookies", "pie"], ["cake"]]
        ∧ ¬ ∃ b ∈ [["cake", "pie"], ["cookies", "pie"], ["cake"]], ListSetProperSub a b)
    ∧ (∀ a ∈ reduceMaximalSets [["cake", "pie"], ["cookies", "pie"], ["cake"]],
        ∀ b ∈ reduceMaximalSets [["cake", "pie"], ["cookies", "pie"], ["cake"]],
        ¬ ListSetProperSub a b)
    ∧ (∀ a ∈ [["cake", "pie"], ["cookies", "pie"], ["cake"]],
        ∀ b ∈ [["cake", "pie"], ["cookies", "pie"], ["cake"]],
        ¬ ListSetEq a b → a.toFinset.card = b.toFinset.card →
        (¬ ListSetProperSub a b ∧ ¬ ListSetProperSub b a)
        ∧ ((¬ ∃ x ∈ [["cake", "pie"], ["cookies", "pie"], ["cake"]], ListSetProperSub a x) →
            (¬ ∃ x ∈ [["cake", "pie"], ["cookies", "pie"], ["cake"]], ListSetProperSub b x) →
            a ∈ reduceMaximalSets [["cake", "pie"], ["cookies", "pie"], ["cake"]]
            ∧ b ∈ reduceMaximalSets [["cake", "pie"], ["cookies", "pie"], ["cake"]])) :=
  maximalReduction_antichain [["cake", "pie"], ["cookies", "pie"], ["cake"]] (by decide)

theorem densityStep_none (baseMap : BaseConversionMap) (acc : DensityAcc) (u : String) :
    densityStep baseMap acc (u, none) = acc := rfl

theorem qualCount_cons_none (baseMap : BaseConversionMap) (mu vu u : String)
    (rest : List (String × Option Measurement)) :
    qualCount baseMap mu vu ((u, none) :: rest) = qualCount baseMap mu vu rest := rfl

theorem qualSum_cons_none (baseMap : BaseConversionMap) (mu vu u : String)
    (rest : List (String × Option Measurement)) :
    qualSum baseMap mu vu ((u, none) :: rest) = qualSum baseMap mu vu rest := rfl

theorem qualCount_cons_some (baseMap : BaseConversionMap) (mu vu u : String)
    (m : Measurement) (rest : List (String × Option Measurement)) :
    qualCount baseMap mu vu ((u, some m) :: rest)
      = (if m.unit = mu ∧ u = vu ∧ (baseMap u).isSome = true then 1 else 0)
        + qualCount baseMap mu vu rest := rfl

theorem qualSum_cons_some (baseMap : BaseConversionMap) (mu vu u : String)
    (m : Measurement) (rest : List (String × Option Measurement)) :
    qualSum baseMap mu vu ((u, some m) :: rest)
      = (if m.unit = mu ∧ u = vu then
          match baseMap u with
          | some b => m.quantity / b.quantity
          | none => 0
         else 0) + qualSum baseMap mu vu rest := rfl

theorem densityFold_fixed (baseMap : BaseConversionMap) {mu vu : String}
    (hmu : mu ≠ "") (hvu : vu ≠ "") :
    ∀ (cells : List (String × Option Measurement)) (sum : ℚ) (count : Nat),
      cells.foldl (densityStep baseMap) ⟨mu, vu, sum, count⟩
        = ⟨mu, vu, sum + qualSum baseMap mu vu cells,
            count + qualCount baseMap mu vu cells⟩ := by
  intro cells
  induction cells with
  | nil => intro sum count; simp [qualSum, qualCount]
  | cons cell rest ih =>
    intro sum count
    obtain ⟨u, mo⟩ := cell
    rw [List.foldl_cons]
    cases mo with
    | none =>
      rw [densityStep_none, ih]
      simp [qualSum, qualCount]
    | some m =>
      have hstep : densityStep baseMap ⟨mu, vu, sum, count⟩ (u, some m)
          = if mu = m.unit ∧ vu = u then
              (match baseMap u with
               | some b => ⟨mu, vu, sum + m.quantity / b.quantity, count + 1⟩
               | none => (⟨mu, vu, sum, count⟩ : DensityAcc))
            else ⟨mu, vu, sum, count⟩ := by
        unfold densityStep
        dsimp only
        rw [if_neg hmu, if_neg hvu]
      rw [hstep]
      by_cases hcond : mu = m.unit ∧ vu = u
      · rw [if_pos hcond]
        cases hb : baseMap u with
        | some b =>
          rw [ih]
          have hq : qualCount baseMap mu vu ((u, some m) :: rest)
              = 1 + qualCount baseMap mu vu rest := by
            rw [qualCount_cons_some, if_pos ⟨hcond.1.symm, hcond.2.symm, by rw [hb]; rfl⟩]
          have hs : qualSum baseMap mu vu ((u, some m) :: rest)
              = m.quantity / b.quantity + qualSum baseMap mu vu rest := by
            rw [qualSum_cons_some, if_pos ⟨hcond.1.symm, hcond.2.symm⟩]
            simp only [hb]
          rw [hq, hs]
          simp only [DensityAcc.mk.injEq, true_and]
          exact ⟨by ring, by omega⟩
        | none =>
          rw [ih]
          have hq : qualCount baseMap mu vu ((u, some m) :: rest)
              = qualCount baseMap mu vu rest := by
            rw [qualCount_cons_some, if_neg (fun h => by rw [hb] at h; exact Bool.noConfusion h.2.2),
              zero_add]
          have hs : qualSum baseMap mu vu ((u, some m) :: rest)
              = qualSum baseMap mu vu rest := by
            rw [qualSum_cons_some, if_pos ⟨hcond.1.symm, hcond.2.symm⟩]
            simp only [hb, zero_add]
          rw [hq, hs]
      · rw [if_neg hcond]
        rw [ih]
        have hne : ¬ (m.unit = mu ∧ u = vu) := fun h => hcond ⟨h.1.symm, h.2.symm⟩
        have hq : qualCount baseMap mu vu ((u, some m) :: rest)
            = qualCount baseMap mu vu rest := by
          rw [qualCount_cons_some, if_neg (fun h => hne ⟨h.1, h.2.1⟩), zero_add]
        have hs : qualSum baseMap mu vu ((u, some m) :: rest)
            = qualSum baseMap mu vu rest := by
          rw [qualSum_cons_some, if_neg hne, zero_add]
        rw [hq, hs]

theorem deriveDensityAcc_of_firstEntry_none (baseMap : BaseConversionMap) :
    ∀ cells, firstEntry cells = none →
      deriveDensityAcc baseMap cells = ⟨"", "", 0, 0⟩ := by
  intro cells
  induction cells with
  | nil => intro _; rfl
  | cons cell rest ih =>
    intro hfe
    obtain ⟨u, mo⟩ := cell
    cases mo with
    | none =>
      have hfe' : firstEntry rest = none := hfe
      unfold deriveDensityAcc at ih ⊢
      rw [List.foldl_cons, densityStep_none]
      exact ih hfe'
    | some m => exact Option.noConfusion hfe

theorem deriveDensityAcc_of_firstEntry_some (baseMap : BaseConversionMap) :
    ∀ (cells : List (String × Option Measurement)) (u₀ : String) (m₀ : Measurement),
      firstEntry cells = some (u₀, m₀) →
      (∀ cell ∈ cells, cell.1 ≠ "") →
      (∀ cell ∈ cells, ∀ m, cell.2 = some m → m.unit ≠ "") →
      deriveDensityAcc baseMap cells
        = ⟨m₀.unit, u₀, qualSum baseMap m₀.unit u₀ cells,
            qualCount baseMap m₀.unit u₀ cells⟩ := by
  intro cells
  induction cells with
  | nil => intro u₀ m₀ h _ _; exact Option.noConfusion h
  | cons cell rest ih =>
    intro u₀ m₀ hfe hcol hunit
    obtain ⟨u, mo⟩ := cell
    cases mo with
    | none =>
      have hfe' : firstEntry rest = some (u₀, m₀) := hfe
      unfold deriveDensityAcc at ih ⊢
      rw [List.foldl_cons, densityStep_none]
      rw [ih u₀ m₀ hfe' (fun c hc => hcol c (List.mem_cons_of_mem _ hc))
        (fun c hc => hunit c (List.mem_cons_of_mem _ hc))]
      simp [qualSum, qualCount]
    | some m =>
      have heq : u₀ = u ∧ m₀ = m := by
        have hsome : some (u, m) = some (u₀, m₀) := hfe
        have hp := Option.some.inj hsome
        exact ⟨(congrArg Prod.fst hp).symm, (congrArg Prod.snd hp).symm⟩
      obtain ⟨rfl, rfl⟩ := heq
      have hmu : m₀.unit ≠ "" :=
        hunit (u₀, some m₀) (List.mem_cons_self _ _) m₀ rfl
      have hvu : u₀ ≠ "" := hcol (u₀, some m₀) (List.mem_cons_self _ _)
      unfold deriveDensityAcc
      rw [List.foldl_cons]
      have hstep : densityStep baseMap ⟨"", "", 0, 0⟩ (u₀, some m₀)
          = (match baseMap u₀ with
             | some b => ⟨m₀.unit, u₀, 0 + m₀.quantity / b.quantity, 0 + 1⟩
             | none => (⟨m₀.unit, u₀, 0, 0⟩ : DensityAcc)) := by
        unfold densityStep
        dsimp only
        rw [if_pos rfl, if_pos rfl, if_pos ⟨rfl, rfl⟩]
      rw [hstep]
      cases hb : baseMap u₀ with
      | some b =>
        simp only [hb]
        rw [densityFold_fixed baseMap hmu hvu rest (0 + m₀.quantity / b.quantity) (0 + 1)]
        have hq : qualCount baseMap m₀.unit u₀ ((u₀, some m₀) :: rest)
            = 1 + qualCount baseMap m₀.unit u₀ rest := by
          rw [qualCount_cons_some, if_pos ⟨rfl, rfl, by rw [hb]; rfl⟩]
        have hs : qualSum baseMap m₀.unit u₀ ((u₀, some m₀) :: rest)
            = m₀.quantity / b.quantity + qualSum baseMap m₀.unit u₀ rest := by
          rw [qualSum_cons_some, if_pos ⟨rfl, rfl⟩]
          simp only [hb]
        rw [hq, hs]
        simp only [DensityAcc.mk.injEq, true_and, and_true]
        ring
      | none =>
        simp only [hb]
        rw [densityFold_fixed baseMap hmu hvu rest 0 0]
        have hq : qualCount baseMap m₀.unit u₀ ((u₀, some m₀) :: rest)
            = qualCount baseMap m₀.unit u₀ rest := by
          rw [qualCount_cons_some, if_neg (fun h => by rw [hb] at h; exact Bool.noConfusion h.2.2),
            zero_add]
        have hs : qualSum baseMap m₀.unit u₀ ((u₀, some m₀) :: rest)
            = qualSum baseMap m₀.unit u₀ rest := by
          rw [qualSum_cons_some, if_pos ⟨rfl, rfl⟩]
          simp only [hb, zero_add]
        rw [hq, hs]
        simp only [DensityAcc.mk.injEq, true_and]
        exact ⟨by ring, by omega⟩

theorem qualCount_pos_of_firstEntry (baseMap : BaseConversionMap) :
    ∀ (cells : List (String × Option Measurement)) (u₀ : String) (m₀ : Measurement),
      firstEntry cells = some (u₀, m₀) →
      (∀ cell ∈ cells, (baseMap cell.1).isSome = true) →
      qualCount baseMap m₀.unit u₀ cells ≠ 0 := by
  intro cells
  induction cells with
  | nil => intro u₀ m₀ h _; exact Option.noConfusion h
  | cons cell rest ih =>
    intro u₀ m₀ hfe hcov
    obtain ⟨u, mo⟩ := cell
    cases mo with
    | none =>
      have hfe' : firstEntry rest = some (u₀, m₀) := hfe
      have := ih u₀ m₀ hfe' (fun c hc => hcov c (List.mem_cons_of_mem _ hc))
      rw [qualCount_cons_none]
      exact this
    | some m =>
      have heq : u₀ = u ∧ m₀ = m := by
        have hsome : some (u, m) = some (u₀, m₀) := hfe
        have hp := Option.some.inj hsome
        exact ⟨(congrArg Prod.fst hp).symm, (congrArg Prod.snd hp).symm⟩
      obtain ⟨rfl, rfl⟩ := heq
      have hsome : (baseMap u₀).isSome = true := hcov (u₀, some m₀) (List.mem_cons_self _ _)
      rw [qualCount_cons_some, if_pos ⟨rfl, rfl, hsome⟩]
      omega

/-- Claim C9: for a product row of the conversion CSV, the derivation
accumulates, over exactly the qualifying cells (unit pair matching the
first-seen mass/volume axes and a base conversion present for the column
unit), the samples measuredQuantity / baseFactor(volumeUnit); the stored
ratio is their arithmetic mean when at least one sample qualifies, and with
zero qualifying samples it is the Go division 0/0 — NaN, modelled as
none — while both axes remain empty, so that any feasibility check needing
density for such a product hits the axis-mismatch abort: the subset is
infeasible and is never compared against the NaN value. -/
theorem densityMean_and_zeroSamples (baseMap : BaseConversionMap)
    (cells : List (String × Option Measurement))
    (hcol : ∀ cell ∈ cells, cell.1 ≠ "")
    (hunit : ∀ cell ∈ cells, ∀ m, cell.2 = some m → m.unit ≠ "")
    (hcov : ∀ cell ∈ cells, (baseMap cell.1).isSome = true) :
    (∀ u₀ m₀, firstEntry cells = some (u₀, m₀) →
        (deriveDensityAcc baseMap cells).sum = qualSum baseMap m₀.unit u₀ cells
        ∧ (deriveDensityAcc baseMap cells).count = qualCount baseMap m₀.unit u₀ cells)
    ∧ ((deriveDensityAcc baseMap cells).count ≠ 0 →
        densityRatio (deriveDensityAcc baseMap cells)
          = some ((deriveDensityAcc baseMap cells).sum
              / ((deriveDensityAcc baseMap cells).count : ℚ)))
    ∧ ((deriveDensityAcc baseMap cells).count = 0 →
        densityRatio (deriveDensityAcc baseMap cells) = none
        ∧ (deriveDensityAcc baseMap cells).massUnit = ""
        ∧ (deriveDensityAcc baseMap cells).volumeUnit = "")
    ∧ (∀ (t : RecipeTable) (dmap : DensityMap) (s : Int) (stock : Stock)
        (S : List String) (ing rp : Product) (q : ℚ),
        (deriveDensityAcc baseMap cells).count = 0 →
        dmap ing.name = some ⟨q, (deriveDensityAcc baseMap cells).massUnit,
          (deriveDensityAcc baseMap cells).volumeUnit⟩ →
        ing ∈ subsetIngredients t S →
        stock ing.name = some rp →
        ing.unit ≠ toTasteUnitName →
        rp.unit ≠ ing.unit →
        evalSubset t dmap s stock S = none) := by
  have hzero : (deriveDensityAcc baseMap cells).count = 0 →
      deriveDensityAcc baseMap cells = ⟨"", "", 0, 0⟩ := by
    intro hc
    cases hfe : firstEntry cells with
    | none => exact deriveDensityAcc_of_firstEntry_none baseMap cells hfe
    | some e =>
      exfalso
      have hspec := deriveDensityAcc_of_firstEntry_some baseMap cells e.1 e.2
        (by rw [hfe]) hcol hunit
      have hpos := qualCount_pos_of_firstEntry baseMap cells e.1 e.2 (by rw [hfe]) hcov
      rw [hspec] at hc
      exact hpos hc
  refine ⟨?_, ?_, ?_, ?_⟩
  · intro u₀ m₀ hfe
    rw [deriveDensityAcc_of_firstEntry_some baseMap cells u₀ m₀ hfe hcol hunit]
    exact ⟨rfl, rfl⟩
  · intro hc
    unfold densityRatio
    rw [if_neg hc]
  · intro hc
    refine ⟨by unfold densityRatio; rw [if_pos hc], ?_, ?_⟩ <;> rw [hzero hc]
  · intro t dmap s stock S ing rp q hc hdm hmem hst ht hmism
    rw [hzero hc] at hdm
    refine evalSubset_none_of_badunit hmem hst ht hmism ?_
    unfold densityConvFails
    rw [hdm]
    constructor
    · rintro ⟨hiu, hru⟩
      exact hmism (hru.trans hiu.symm)
    · rintro ⟨hiu, hru⟩
      exact hmism (hru.trans hiu.symm)

/-- Witness for C9 on a concrete row: flour measured as 120 g per cup and
8 g per tbsp with base factors cup = 240 ml and tbsp = 15 ml; only the
first cell qualifies (axes g/cup), giving one sample 120/240 and the mean
ratio 1/2. -/
theorem densityMean_and_zeroSamples_witness :
    (deriveDensityAcc
        (fun u => if u = "cup" then some ⟨240, "ml"⟩
          else if u = "tbsp" then some ⟨15, "ml"⟩ else none)
        [("cup", some ⟨120, "g"⟩), ("tbsp", some ⟨8, "g"⟩)]).sum
      = qualSum
        (fun u => if u = "cup" then some ⟨240, "ml"⟩
          else if u = "tbsp" then some ⟨15, "ml"⟩ else none) "g" "cup"
        [("cup", some ⟨120, "g"⟩), ("tbsp", some ⟨8, "g"⟩)]
    ∧ (deriveDensityAcc
        (fun u => if u = "cup" then some ⟨240, "ml"⟩
          else if u = "tbsp" then some ⟨15, "ml"⟩ else none)
        [("cup", some ⟨120, "g"⟩), ("tbsp", some ⟨8, "g"⟩)]).count
      = qualCount
        (fun u => if u = "cup" then some ⟨240, "ml"⟩
          else if u = "tbsp" then some ⟨15, "ml"⟩ else none) "g" "cup"
        [("cup", some ⟨120, "g"⟩), ("tbsp", some ⟨8, "g"⟩)] :=
  (densityMean_and_zeroSamples
    (fun u => if u = "cup" then some ⟨240, "ml"⟩
      else if u = "tbsp" then some ⟨15, "ml"⟩ else none)
    [("cup", some ⟨120, "g"⟩), ("tbsp", some ⟨8, "g"⟩)]
    (by intro cell hc; rcases List.mem_cons.mp hc with rfl | hc <;> simp_all)
    (by
      intro cell hc m hm
      rcases List.mem_cons.mp hc with rfl | hc
      · obtain rfl : m = ⟨120, "g"⟩ := (Option.some.inj hm).symm
        simp
      · rcases List.mem_cons.mp hc with rfl | hc
        · obtain rfl : m = ⟨8, "g"⟩ := (Option.some.inj hm).symm
          simp
        · simp at hc)
    (by intro cell hc; rcases List.mem_cons.mp hc with rfl | hc <;> simp_all)).1
    "cup" ⟨120, "g"⟩ rfl

end FoodTP
